import Mathlib

/-!
# Crawl-ingest pipeline: formal model and verification

A shallow embedding of the crawl-ingest pipeline of the mobile-development
news aggregator: normalizer utilities (truncation), the keyword-scoring
categorizer, the tag processor, the feed adapter's entry parsing, the
ingestion orchestrator (`process_batch`) over an explicit storage state,
and a small-step interleaving semantics for two concurrent batch runs
arbitrated by the storage-level unique constraint.

The pipeline's backend source files (crawler/base.py, crawler/service.py,
crawler/tasks.py, crawler/models.py) are not part of the source tree
available here; the definitions below are modelled from the specification's
own description of each component, as noted on each definition.
-/

namespace Crawl

/-! ## Character and string utilities -/

/-- Lower-case an ASCII character (the categorizer and slugifier lower-case
their input before matching). -/
def lowerChar (c : Char) : Char :=
  if 'A' ≤ c ∧ c ≤ 'Z' then Char.ofNat (c.toNat + 32) else c

/-- Whitespace test used by word-boundary truncation. -/
def isWs (c : Char) : Bool :=
  c == ' ' || c == '\t' || c == '\n' || c == '\r'

/-- `containsSub n h` holds when `n` occurs as a contiguous substring of
`h` (the `keyword in text` membership test of the categorizer). -/
def containsSub (n : List Char) : List Char → Bool
  | [] => n.isEmpty
  | c :: rest => n.isPrefixOf (c :: rest) || containsSub n rest

/-- Lower-case a string character-wise. -/
def lowerStr (s : String) : List Char :=
  s.data.map lowerChar

/-! ## Categorizer

Modelled from the spec: `categorize(title, summary, content,
fallback_category_slug)` concatenates title+summary+content, lower-cases,
scores each category of a fixed ordered keyword table by the number of its
keywords present as substrings (presence, not frequency), picks the first
category attaining the highest score, and falls back to the caller-supplied
slug when every category scores 0.  The keyword table and its fixed
priority order `android, ios, react-native, flutter, cross-platform` are
those documented for `CATEGORY_KEYWORDS`. -/

/-- The ordered category → keyword table, in its fixed priority order. -/
def CATEGORY_KEYWORDS : List (String × List String) :=
  [ ("android", ["android", "kotlin", "jetpack", "compose", "gradle"]),
    ("ios", ["ios", "swift", "swiftui", "xcode", "cocoapods"]),
    ("react-native", ["react native", "expo", "metro"]),
    ("flutter", ["flutter", "dart", "widget"]),
    ("cross-platform", ["cross-platform", "multiplatform", "hybrid", "cordova", "ionic"]) ]

/-- Score one category on a lower-cased text: the count of its keywords
present as substrings, each keyword contributing at most 1. -/
def scoreKeywords (kws : List String) (text : List Char) : Nat :=
  kws.countP (fun kw => containsSub kw.data text)

/-- The search text of an article: title, summary and content concatenated
with single spaces, lower-cased. -/
def searchText (title summary content : String) : List Char :=
  lowerStr (title ++ " " ++ summary ++ " " ++ content)

/-- All five category scores for an article, in fixed priority order. -/
def catScores (title summary content : String) : List (String × Nat) :=
  CATEGORY_KEYWORDS.map (fun p => (p.1, scoreKeywords p.2 (searchText title summary content)))

/-- Pick the first entry attaining the maximal score (a later entry wins
only with a strictly higher score: first-maximum semantics). -/
def pickBest : List (String × Nat) → String × Nat
  | [] => ("", 0)
  | p :: rest =>
      let b := pickBest rest
      if b.2 > p.2 then b else p

/-- Modelled from the spec: the pure categorizer.  Returns the
first-maximum category slug, or the caller's fallback slug when every
category scores 0. -/
def categorize (title summary content fallback : String) : String :=
  let b := pickBest (catScores title summary content)
  if b.2 = 0 then fallback else b.1

example : categorize "Building Android apps with Jetpack Compose and Kotlin" "" "" "cross-platform" = "android" := by decide

example : categorize "" "" "" "cross-platform" = "cross-platform" := by decide

example : categorize "swift expo" "" "" "cross-platform" = "ios" := by decide

/-! ## Tag processor

Modelled from the spec: `process_tags(raw_tags)` drops empty strings and
tags longer than 100 characters, normalizes each survivor to a slug
(lower-case, word-separator normalization), deduplicates case-insensitively
preserving first-occurrence order, and caps the result at 10 slugs (the cap
is applied after deduplication). -/

/-- A slug-alphabet character: lower-case letter or digit. -/
def isSlugChar (c : Char) : Bool :=
  ('a' ≤ c && c ≤ 'z') || ('0' ≤ c && c ≤ '9')

/-- Collapse runs of the separator character to one and drop leading
separators, as the slug normalizer does with word separators. -/
def collapseSep : List Char → List Char
  | [] => []
  | '-' :: rest =>
      match collapseSep rest with
      | [] => []
      | l => '-' :: l
  | c :: rest => c :: collapseSep rest

/-- Drop a trailing separator. -/
def dropTrailingSep (l : List Char) : List Char :=
  (l.reverse.dropWhile (fun c => c == '-')).reverse

/-- Slug normalization: lower-case, every non-alphanumeric run becomes one
hyphen, no leading or trailing hyphen (`"React Native"` → `"react-native"`). -/
def slugify (s : String) : String :=
  ⟨dropTrailingSep (collapseSep ((lowerStr s).map (fun c => if isSlugChar c then c else '-')))⟩

/-- Dedup keeping the first occurrence of each slug, tracking slugs already
emitted. -/
def dedupFirstAux (seen : List String) : List String → List String
  | [] => []
  | x :: xs => if x ∈ seen then dedupFirstAux seen xs else x :: dedupFirstAux (x :: seen) xs

/-- Case-insensitive dedup keeping the first occurrence of each slug. -/
def dedupFirst (l : List String) : List String :=
  dedupFirstAux [] l

/-- Modelled from the spec: the pure tag processor, filter → slugify →
first-occurrence dedup → cap at 10. -/
def process_tags (raw : List String) : List String :=
  (dedupFirst ((raw.filter (fun t => t ≠ "" && t.length ≤ 100)).map slugify)).take 10

example : slugify "React Native" = "react-native" := by decide

example : process_tags ["React Native", "react-native", "Android"] = ["react-native", "android"] := by decide

/-! ## Normalizer: word-boundary truncation

Modelled from the spec: `truncate(text, max_length)` returns the text
unchanged when it fits; otherwise it cuts the `max_length`-prefix at the
last whitespace boundary at or before `max_length` so no word is split
(when the prefix holds no whitespace the boundary is the start of the
text), and never produces output longer than `max_length`. -/

/-- Position of the cut: the index of the last whitespace character of
`l`, or `0` when `l` has none. -/
def cutLen (l : List Char) : Nat :=
  (l.reverse.dropWhile (fun c => !isWs c)).length - 1

/-- Modelled from the spec: word-boundary-aware truncation. -/
def truncate (s : String) (maxLength : Nat) : String :=
  if s.data.length ≤ maxLength then s
  else ⟨(s.data.take maxLength).take (cutLen (s.data.take maxLength))⟩

example : truncate "a very long sentence with many words" 10 = "a very" := by decide

example : truncate "short" 10 = "short" := by decide

/-! ## Data model

Modelled from the spec's data model: the transient `RawArticle` produced by
adapters, the persistent `Article` row, the `Source` row, and the `RunLog`
audit record.  Timestamps are abstracted to `Nat`. -/

/-- Adapter output: the canonical in-memory article. -/
structure RawArticle where
  title : String
  url : String
  publishedAt : Nat
  summary : String
  content : String
  thumbnailUrl : Option String
  tags : List String
deriving DecidableEq, Repr

/-- A persisted Article row. -/
structure Article where
  title : String
  summary : String
  content : String
  originalUrl : String
  thumbnailUrl : Option String
  category : String
  sourceUrl : String
  tags : List String
  publishedAt : Nat
deriving DecidableEq, Repr

/-- A persisted Source row. -/
structure Source where
  name : String
  url : String
  sourceType : String
  lastCrawledAt : Option Nat
deriving DecidableEq, Repr

/-- Adapter-invocation status of a run-log record. -/
inductive LogStatus where
  | success
  | failed
deriving DecidableEq, Repr

/-- A persisted RunLog audit record, one per adapter invocation. -/
structure RunLog where
  sourceUrl : String
  status : LogStatus
  articlesFound : Nat
  errorMessage : String
  startedAt : Nat
  finishedAt : Nat
deriving DecidableEq, Repr

/-- The storage state the pipeline writes to: Article rows and Source rows.
The unique constraint on `Article.originalUrl` is the invariant the
pipeline maintains over this state. -/
structure DB where
  articles : List Article
  sources : List Source
deriving DecidableEq, Repr

/-- The URLs of all stored articles. -/
def urls (db : DB) : List String :=
  db.articles.map (fun a => a.originalUrl)

/-- The application-level existence check: does an Article with this
`original_url` already exist? -/
def urlExists (db : DB) (u : String) : Bool :=
  db.articles.any (fun a => a.originalUrl == u)

/-! ## Feed-based adapter entry parsing

Modelled from the spec: a feed entry carries optional fields; `crawl()`
parses each entry, dropping any entry lacking a required title or link and
never aborting the remaining entries; summary falls back over description,
content falls back to summary, a missing or unparsable timestamp falls back
to the current time. -/

/-- A raw feed entry as the feed parser exposes it: every field optional. -/
structure FeedEntry where
  title : Option String
  link : Option String
  published : Option Nat
  updated : Option Nat
  summary : Option String
  description : Option String
  contentBlock : Option String
  mediaThumbnail : Option String
  tags : List String
deriving DecidableEq, Repr

/-- Modelled from the spec: parse one feed entry into a `RawArticle`;
`none` exactly when a required field (title or link) is missing. -/
def parseEntry (now : Nat) (maxSummaryLen : Nat) (e : FeedEntry) : Option RawArticle :=
  match e.title, e.link with
  | some t, some l =>
      let rawSummary := (e.summary.getD (e.description.getD ""))
      let summary := truncate rawSummary maxSummaryLen
      some { title := t
             url := l
             publishedAt := (e.published.getD (e.updated.getD now))
             summary := summary
             content := e.contentBlock.getD summary
             thumbnailUrl := e.mediaThumbnail
             tags := e.tags }
  | _, _ => none

/-- Modelled from the spec: a feed-based adapter's `crawl()` parses every
entry, skipping malformed ones without aborting the rest. -/
def crawlFeed (now maxSummaryLen : Nat) (entries : List FeedEntry) : List RawArticle :=
  entries.filterMap (parseEntry now maxSummaryLen)

/-- Well-formedness of a feed entry: both required fields present. -/
def wellFormed (e : FeedEntry) : Bool :=
  e.title.isSome && e.link.isSome

/-! ## Ingestion orchestrator

Modelled from the spec: `process_batch(articles, source_name, source_url,
default_category_slug)` resolves the Source row (get-or-create, deriving
`source_type` from the URL), then for each `RawArticle` independently runs
the dedup check (skip if the URL exists), categorizes, processes tags, and
attempts the per-article atomic transaction; a failed transaction
increments `errors` and rolls back that item's writes without touching the
rest of the batch; afterwards `last_crawled_at` is updated and
`{total, created, skipped, errors}` returned.  The possibility that an
individual per-article transaction fails (constraint race or storage
fault) is modelled by an oracle `failsOn : String → Bool` consulted at the
commit point. -/

/-- Outcome of one item of a batch. -/
inductive Outcome where
  | created
  | skipped
  | errored
deriving DecidableEq, Repr

/-- The aggregate statistics a batch returns. -/
structure Stats where
  total : Nat
  created : Nat
  skipped : Nat
  errors : Nat
deriving DecidableEq, Repr

/-- Build the Article row stored for a raw article: category from the
categorizer, tag slugs from the tag processor. -/
def mkStored (defCat srcUrl : String) (a : RawArticle) : Article :=
  { title := a.title
    summary := a.summary
    content := a.content
    originalUrl := a.url
    thumbnailUrl := a.thumbnailUrl
    category := categorize a.title a.summary a.content defCat
    sourceUrl := srcUrl
    tags := process_tags a.tags
    publishedAt := a.publishedAt }

/-- Insert one Article row. -/
def insertArticle (db : DB) (a : Article) : DB :=
  { db with articles := a :: db.articles }

/-- Process one raw article: dedup check, then the per-article atomic
transaction, which either commits the insert or fails leaving the storage
unchanged (rollback). -/
def saveArticle (failsOn : String → Bool) (defCat srcUrl : String) (db : DB)
    (a : RawArticle) : DB × Outcome :=
  if urlExists db a.url then (db, Outcome.skipped)
  else if failsOn a.url then (db, Outcome.errored)
  else (insertArticle db (mkStored defCat srcUrl a), Outcome.created)

/-- Count an outcome into the statistics. -/
def bump (s : Stats) (oc : Outcome) : Stats :=
  { total := s.total + 1
    created := s.created + (if oc = Outcome.created then 1 else 0)
    skipped := s.skipped + (if oc = Outcome.skipped then 1 else 0)
    errors := s.errors + (if oc = Outcome.errored then 1 else 0) }

/-- The per-item loop of a batch, accumulating outcome counts. -/
def goBatch (failsOn : String → Bool) (defCat srcUrl : String) :
    List RawArticle → DB → DB × Stats
  | [], db => (db, ⟨0, 0, 0, 0⟩)
  | a :: rest, db =>
      let p := saveArticle failsOn defCat srcUrl db a
      let q := goBatch failsOn defCat srcUrl rest p.1
      (q.1, bump q.2 p.2)

/-- Derive `source_type` from the source URL. -/
def sourceTypeOf (u : String) : String :=
  if containsSub "reddit.com".data u.data then "reddit" else "blog"

/-- Get-or-create the Source row keyed on its unique URL. -/
def getOrCreateSource (db : DB) (name url : String) : DB :=
  if db.sources.any (fun s => s.url == url) then db
  else { db with sources := ⟨name, url, sourceTypeOf url, none⟩ :: db.sources }

/-- Update the Source's `last_crawled_at` to the batch start time. -/
def touchSource (db : DB) (url : String) (now : Nat) : DB :=
  { db with sources :=
      db.sources.map (fun s => if s.url == url then { s with lastCrawledAt := some now } else s) }

/-- Modelled from the spec: the orchestrator's single entry point. -/
def process_batch (failsOn : String → Bool) (now : Nat) (items : List RawArticle)
    (sourceName sourceUrl defCat : String) (db : DB) : DB × Stats :=
  let db0 := getOrCreateSource db sourceName sourceUrl
  let p := goBatch failsOn defCat sourceUrl items db0
  (touchSource p.1 sourceUrl now, p.2)

/-- The failure oracle of normal operation: no transaction fails. -/
def noFail : String → Bool := fun _ => false

/-! ## Run Log recording

Modelled from the spec: each adapter invocation is wrapped; the adapter
either returns its items or raises with a message, modelled as
`Except String (List RawArticle)`.  Exactly one RunLog record is appended:
`failed` iff the adapter call itself raised, `articles_found` the count it
returned (0 when it raised), `error_message` the exception's message when
failed and empty otherwise.  On success the items proceed to
`process_batch`. -/

/-- One adapter invocation with its run-log record: returns the updated
storage, the run-log list with exactly the new record appended, and the
batch statistics (zeroed when the adapter raised). -/
def runSource (failsOn : String → Bool) (t0 t1 : Nat)
    (fetched : Except String (List RawArticle))
    (sourceName sourceUrl defCat : String) (db : DB) (logs : List RunLog) :
    DB × List RunLog × Stats :=
  match fetched with
  | Except.error msg =>
      (db, logs ++ [⟨sourceUrl, LogStatus.failed, 0, msg, t0, t1⟩], ⟨0, 0, 0, 0⟩)
  | Except.ok items =>
      let p := process_batch failsOn t0 items sourceName sourceUrl defCat db
      (p.1, logs ++ [⟨sourceUrl, LogStatus.success, items.length, "", t0, t1⟩], p.2)

/-! ## Concurrent interleavings of two batch runs

Modelled from the spec: per article a run performs two separately atomic
storage actions — the application-level dedup check, and the per-article
transactional insert, whose commit the storage-level unique constraint
arbitrates (it fails exactly when the URL was inserted by a racing writer
between the check and the commit).  Two runs interleave these atomic
actions arbitrarily over the shared storage. -/

/-- The position of a run inside its batch: at the head of its remaining
items, or between the dedup check and the commit of one article. -/
inductive Phase where
  | ready (rest : List RawArticle)
  | pending (a : RawArticle) (rest : List RawArticle)
deriving DecidableEq

/-- One run's configuration: its phase plus its source parameters. -/
structure RunCfg where
  phase : Phase
  defCat : String
  srcUrl : String
deriving DecidableEq

/-- The items a run has not fully resolved yet. -/
def RunCfg.items (r : RunCfg) : List RawArticle :=
  match r.phase with
  | Phase.ready rest => rest
  | Phase.pending a rest => a :: rest

/-- One atomic storage action of a run.  `checkDup` skips an existing URL,
`checkFresh` passes the dedup check, `insertOk` commits the insert when
the unique constraint is satisfied, `insertRace` is the constraint
violation raised when a racing writer inserted the URL between the check
and the commit: the transaction rolls back and the item counts as an
error. -/
inductive MicroStep : DB → RunCfg → DB → RunCfg → Prop where
  | checkDup (db : DB) (a : RawArticle) (rest : List RawArticle) (d u : String) :
      urlExists db a.url = true →
      MicroStep db ⟨Phase.ready (a :: rest), d, u⟩ db ⟨Phase.ready rest, d, u⟩
  | checkFresh (db : DB) (a : RawArticle) (rest : List RawArticle) (d u : String) :
      urlExists db a.url = false →
      MicroStep db ⟨Phase.ready (a :: rest), d, u⟩ db ⟨Phase.pending a rest, d, u⟩
  | insertOk (db : DB) (a : RawArticle) (rest : List RawArticle) (d u : String) :
      urlExists db a.url = false →
      MicroStep db ⟨Phase.pending a rest, d, u⟩
        (insertArticle db (mkStored d u a)) ⟨Phase.ready rest, d, u⟩
  | insertRace (db : DB) (a : RawArticle) (rest : List RawArticle) (d u : String) :
      urlExists db a.url = true →
      MicroStep db ⟨Phase.pending a rest, d, u⟩ db ⟨Phase.ready rest, d, u⟩

/-- Two concurrent runs over the shared storage. -/
structure Sys where
  db : DB
  r1 : RunCfg
  r2 : RunCfg
deriving DecidableEq

/-- One interleaving step: either run performs one atomic action. -/
inductive SysStep : Sys → Sys → Prop where
  | left (db : DB) (r1 r2 : RunCfg) (db' : DB) (r1' : RunCfg) :
      MicroStep db r1 db' r1' → SysStep ⟨db, r1, r2⟩ ⟨db', r1', r2⟩
  | right (db : DB) (r1 r2 : RunCfg) (db' : DB) (r2' : RunCfg) :
      MicroStep db r2 db' r2' → SysStep ⟨db, r1, r2⟩ ⟨db', r1, r2'⟩

/-- An arbitrary interleaving: any finite sequence of steps. -/
def Reach : Sys → Sys → Prop :=
  Relation.ReflTransGen SysStep

/-- A run that has resolved its whole batch. -/
def RunCfg.done (r : RunCfg) : Prop :=
  r.phase = Phase.ready []

/-! ## Lemmas: tag processor -/

theorem dedupFirstAux_not_mem_seen :
    ∀ (l seen : List String) (x : String), x ∈ dedupFirstAux seen l → x ∉ seen := by
  intro l
  induction l with
  | nil => intro seen x hx; simp [dedupFirstAux] at hx
  | cons y ys ih =>
      intro seen x hx
      by_cases hy : y ∈ seen
      · simp [dedupFirstAux, hy] at hx
        exact ih seen x hx
      · simp [dedupFirstAux, hy] at hx
        rcases hx with rfl | hx
        · exact hy
        · have := ih (y :: seen) x hx
          intro hmem
          exact this (List.mem_cons_of_mem _ hmem)

theorem dedupFirstAux_nodup : ∀ (l seen : List String), (dedupFirstAux seen l).Nodup := by
  intro l
  induction l with
  | nil => intro seen; simp [dedupFirstAux]
  | cons y ys ih =>
      intro seen
      by_cases hy : y ∈ seen
      · simpa [dedupFirstAux, hy] using ih seen
      · simp only [dedupFirstAux, hy, if_false]
        refine List.nodup_cons.mpr ⟨?_, ih (y :: seen)⟩
        intro hmem
        exact dedupFirstAux_not_mem_seen ys (y :: seen) y hmem (List.mem_cons_self _ _)

theorem dedupFirst_nodup (l : List String) : (dedupFirst l).Nodup :=
  dedupFirstAux_nodup l []

/-- C4: `process_tags` deduplicates case-insensitively preserving
first-occurrence order and applies the 10-tag cap after deduplication:
every output has at most 10 distinct slugs, and for 15 raw tags including
`"React Native"` and `"react-native"` as separate strings, the two
collapse to the single slug `"react-native"` before the cap is applied, so
the capped output still holds 10 distinct slugs drawn from the 14 deduped
ones. -/
theorem process_tags_cap_after_dedup :
    (∀ raw : List String, (process_tags raw).length ≤ 10 ∧ (process_tags raw).Nodup)
    ∧ process_tags ["React Native", "react-native", "Perf", "GUI", "Mobile", "Apps", "Code",
        "Tips", "News", "Build", "Test", "Ship", "Infra", "Cloud", "Edge"] =
      ["react-native", "perf", "gui", "mobile", "apps", "code", "tips", "news", "build", "test"] := by
  constructor
  · intro raw
    constructor
    · exact List.length_take_le _ _
    · exact (dedupFirst_nodup _).sublist (List.take_sublist _ _)
  · decide

/-! ## Lemmas: categorizer -/

/-- The maximal score of a scored category list. -/
def maxScore (l : List (String × Nat)) : Nat :=
  l.foldr (fun p m => Nat.max p.2 m) 0

theorem maxScore_le_iff (l : List (String × Nat)) (b : Nat) :
    maxScore l ≤ b ↔ ∀ p ∈ l, p.2 ≤ b := by
  induction l with
  | nil => simp [maxScore]
  | cons q rest ih =>
      simp only [maxScore, List.foldr_cons, Nat.max_le, List.mem_cons] at *
      constructor
      · rintro ⟨h1, h2⟩ p (rfl | hp)
        · exact h1
        · exact ih.mp h2 p hp
      · intro h
        exact ⟨h q (Or.inl rfl), ih.mpr (fun p hp => h p (Or.inr hp))⟩

theorem pickBest_snd (l : List (String × Nat)) : (pickBest l).2 = maxScore l := by
  induction l with
  | nil => rfl
  | cons q rest ih =>
      have hm : maxScore (q :: rest) = Nat.max q.2 (maxScore rest) := rfl
      simp only [pickBest, hm]
      split
      · rename_i h
        rw [ih] at h ⊢
        exact (Nat.max_eq_right (Nat.le_of_lt h)).symm
      · rename_i h
        rw [ih] at h
        exact (Nat.max_eq_left (Nat.le_of_not_lt h)).symm

theorem pickBest_first_max :
    ∀ (l : List (String × Nat)) (i : Nat) (hi : i < l.length),
      (∀ p ∈ l, p.2 ≤ (l.get ⟨i, hi⟩).2) →
      (∀ p ∈ l.take i, p.2 < (l.get ⟨i, hi⟩).2) →
      pickBest l = l.get ⟨i, hi⟩ := by
  intro l
  induction l with
  | nil => intro i hi; simp at hi
  | cons q rest ih =>
      intro i hi hmax hfirst
      cases i with
      | zero =>
          simp only [List.get] at hmax ⊢
          have hb : (pickBest rest).2 ≤ q.2 := by
            rw [pickBest_snd]
            exact (maxScore_le_iff rest q.2).mpr
              (fun p hp => hmax p (List.mem_cons_of_mem _ hp))
          simp only [pickBest]
          split
          · rename_i h; omega
          · rfl
      | succ j =>
          have hj : j < rest.length := by simpa using hi
          have hget : ((q :: rest).get ⟨j + 1, hi⟩) = rest.get ⟨j, hj⟩ := rfl
          rw [hget] at hmax hfirst ⊢
          have htake : (q :: rest).take (j + 1) = q :: rest.take j := rfl
          have hq : q.2 < (rest.get ⟨j, hj⟩).2 := by
            apply hfirst
            rw [htake]
            exact List.mem_cons_self _ _
          have hrest : pickBest rest = rest.get ⟨j, hj⟩ := by
            apply ih j hj
            · intro p hp; exact hmax p (List.mem_cons_of_mem _ hp)
            · intro p hp
              apply hfirst
              rw [htake]
              exact List.mem_cons_of_mem _ hp
          simp only [pickBest, hrest]
          split
          · rfl
          · rename_i h
            omega

/-- C5: `categorize` resolves score ties by the fixed priority order of the
keyword table: whenever position `i` of the scored list attains a positive
maximal score and every earlier position scores strictly lower, the
category at position `i` is returned; in particular a text scoring 1 on
both `ios` and `react-native` resolves to `"ios"`. -/
theorem categorize_tiebreak (title summary content fallback : String) (i : Nat)
    (hi : i < (catScores title summary content).length)
    (hpos : 0 < ((catScores title summary content).get ⟨i, hi⟩).2)
    (hmax : ∀ p ∈ catScores title summary content,
      p.2 ≤ ((catScores title summary content).get ⟨i, hi⟩).2)
    (hfirst : ∀ p ∈ (catScores title summary content).take i,
      p.2 < ((catScores title summary content).get ⟨i, hi⟩).2) :
    categorize title summary content fallback =
      ((catScores title summary content).get ⟨i, hi⟩).1 := by
  have hbest := pickBest_first_max (catScores title summary content) i hi hmax hfirst
  simp only [categorize, hbest]
  split
  · rename_i h
    rw [h] at hpos
    exact absurd hpos (by omega)
  · rfl

/-- C5 witness: a text holding exactly one `ios` keyword (`swift`) and one
`react-native` keyword (`expo`) ties 1–1 and resolves to `"ios"`. -/
theorem categorize_tiebreak_witness :
    categorize "swift expo" "" "" "cross-platform" = "ios" :=
  categorize_tiebreak "swift expo" "" "" "cross-platform" 1 (by decide) (by decide)
    (by decide) (by decide)

/-- C6: `categorize` scores by case-insensitive keyword presence (at most 1
per keyword regardless of repetition) over title+summary+content and falls
back to the caller's slug when every category scores 0: the Android
example scores 4 and returns `"android"`, the empty text returns the
fallback `"cross-platform"`, and a text repeating `flutter` three times
still scores 1 on the flutter keywords. -/
theorem categorize_scoring :
    (∀ title summary content fallback : String,
      (∀ p ∈ catScores title summary content, p.2 = 0) →
      categorize title summary content fallback = fallback)
    ∧ categorize "Building Android apps with Jetpack Compose and Kotlin" "" "" "cross-platform"
        = "android"
    ∧ catScores "Building Android apps with Jetpack Compose and Kotlin" "" "" =
        [("android", 4), ("ios", 0), ("react-native", 0), ("flutter", 0), ("cross-platform", 0)]
    ∧ categorize "" "" "" "cross-platform" = "cross-platform"
    ∧ scoreKeywords ["flutter", "dart", "widget"] (lowerStr "flutter flutter flutter") = 1 := by
  refine ⟨?_, by decide, by decide, by decide, by decide⟩
  intro title summary content fallback hz
  have hmax : maxScore (catScores title summary content) = 0 := by
    have := (maxScore_le_iff (catScores title summary content) 0).mpr
      (fun p hp => Nat.le_of_eq (hz p hp))
    omega
  simp [categorize, pickBest_snd, hmax]

/-- C6 witness: the fallback branch applied at the empty text. -/
theorem categorize_scoring_witness :
    categorize "" "" "" "flutter" = "flutter" :=
  categorize_scoring.1 "" "" "" "flutter" (by decide)

/-! ## Lemmas: truncation -/

/-- C7: `truncate` never returns more than `max_length` characters, and
its output is a prefix of the input cut at a word boundary: either the
whole text, the empty prefix, or a prefix whose next input character is
whitespace — so no word of the input is split mid-token. -/
theorem truncate_word_boundary (s : String) (m : Nat) :
    (truncate s m).data.length ≤ m ∧
    ∃ k, (truncate s m).data = s.data.take k ∧
      (k = s.data.length ∨ k = 0 ∨
        ∃ hk : k < s.data.length, isWs (s.data.get ⟨k, hk⟩) = true) := by
  by_cases h : s.data.length ≤ m
  · simp only [truncate, if_pos h]
    exact ⟨h, s.data.length, (List.take_length _).symm, Or.inl rfl⟩
  · simp only [truncate, if_neg h]
    cases hr : (s.data.take m).reverse.dropWhile (fun c => !isWs c) with
    | nil =>
        have hc : cutLen (s.data.take m) = 0 := by simp [cutLen, hr]
        refine ⟨?_, 0, ?_, Or.inr (Or.inl rfl)⟩
        · rw [hc]; simp
        · rw [hc]; simp
    | cons c t =>
        have hcut : cutLen (s.data.take m) = t.length := by simp [cutLen, hr]
        have hws : isWs c = true := by
          have hne : (s.data.take m).reverse.dropWhile (fun c => !isWs c) ≠ [] := by
            rw [hr]; exact List.cons_ne_nil _ _
          have := List.head_dropWhile_not (fun c => !isWs c) (s.data.take m).reverse hne
          have hhead : ((s.data.take m).reverse.dropWhile (fun c => !isWs c)).head hne = c := by
            rw [List.head_eq_iff_head?_eq_some]
            rw [hr]
            rfl
          rw [hhead] at this
          simpa using this
        obtain ⟨w, hsplit⟩ : ∃ w, (s.data.take m).reverse = w ++ (c :: t) := by
          refine ⟨(s.data.take m).reverse.takeWhile (fun c => !isWs c), ?_⟩
          conv_lhs => rw [← List.takeWhile_append_dropWhile
            (fun c => !isWs c) (s.data.take m).reverse]
          rw [hr]
        have hl2 : s.data.take m = t.reverse ++ c :: w.reverse := by
          have h2 := congrArg List.reverse hsplit
          rw [List.reverse_reverse] at h2
          rw [h2]
          simp [List.reverse_append]
        have hlen : (s.data.take m).length = m := by
          rw [List.length_take]
          omega
        have hlt : t.length < m := by
          have hsub : ((s.data.take m).reverse.dropWhile (fun c => !isWs c)).length ≤
              (s.data.take m).reverse.length := (List.dropWhile_sublist _).length_le
          rw [hr, List.length_reverse, hlen] at hsub
          simp only [List.length_cons] at hsub
          omega
        have htk : (s.data.take m).take t.length = t.reverse := by
          conv_lhs => rw [hl2]
          exact List.take_left' (by rw [List.length_reverse])
        have hkm : t.length < s.data.length := by omega
        refine ⟨?_, t.length, ?_, Or.inr (Or.inr ⟨hkm, ?_⟩)⟩
        · show ((s.data.take m).take (cutLen (s.data.take m))).length ≤ m
          rw [hcut, htk, List.length_reverse]
          omega
        · show (s.data.take m).take (cutLen (s.data.take m)) = s.data.take t.length
          rw [hcut, List.take_take, Nat.min_eq_left (Nat.le_of_lt hlt)]
        · have hb1 : t.length < (s.data.take m).length := by rw [hlen]; exact hlt
          have h3 : (s.data.take m)[t.length] = s.data[t.length] := List.getElem_take _
          have h4 : (s.data.take m)[t.length] = c := by
            rw [List.getElem_of_eq hl2 hb1,
              List.getElem_append_right (by rw [List.length_reverse])]
            simp
          rw [List.get_eq_getElem, ← h3, h4]
          exact hws

/-! ## Lemmas: feed adapter resilience -/

theorem length_filterMap_eq_length_filter_isSome (f : FeedEntry → Option RawArticle) :
    ∀ l : List FeedEntry,
      (l.filterMap f).length = (l.filter (fun e => (f e).isSome)).length := by
  intro l
  induction l with
  | nil => rfl
  | cons e rest ih =>
      cases hfe : f e with
      | none => simp [List.filterMap_cons, List.filter_cons, hfe, ih]
      | some a => simp [List.filterMap_cons, List.filter_cons, hfe, ih]

theorem parseEntry_isSome (now k : Nat) (e : FeedEntry) :
    (parseEntry now k e).isSome = wellFormed e := by
  cases ht : e.title with
  | none => cases hl : e.link <;> simp [parseEntry, wellFormed, ht, hl]
  | some t => cases hl : e.link <;> simp [parseEntry, wellFormed, ht, hl]

/-- C8: a feed-based adapter's `crawl()` drops each malformed entry (one
lacking a required title or link) without aborting the remaining entries:
the output is exactly the parse of the well-formed entries (its length is
the count of well-formed entries, a malformed head is dropped, a parsed
head is emitted followed by the rest), and a 5-entry feed whose third
entry lacks `link` yields exactly the 4 RawArticles of the others. -/
theorem crawl_drops_malformed :
    (∀ (now k : Nat) (entries : List FeedEntry),
      (crawlFeed now k entries).length = (entries.filter wellFormed).length)
    ∧ (∀ (now k : Nat) (e : FeedEntry) (rest : List FeedEntry),
        wellFormed e = false → crawlFeed now k (e :: rest) = crawlFeed now k rest)
    ∧ (∀ (now k : Nat) (e : FeedEntry) (rest : List FeedEntry) (a : RawArticle),
        parseEntry now k e = some a → crawlFeed now k (e :: rest) = a :: crawlFeed now k rest)
    ∧ (crawlFeed 0 500
        [ ⟨some "T1", some "L1", some 1, none, some "S1", none, none, none, []⟩,
          ⟨some "T2", some "L2", some 2, none, some "S2", none, none, none, []⟩,
          ⟨some "T3", none, some 3, none, some "S3", none, none, none, []⟩,
          ⟨some "T4", some "L4", some 4, none, some "S4", none, none, none, []⟩,
          ⟨some "T5", some "L5", some 5, none, some "S5", none, none, none, []⟩ ] =
        [ ⟨"T1", "L1", 1, "S1", "S1", none, []⟩,
          ⟨"T2", "L2", 2, "S2", "S2", none, []⟩,
          ⟨"T4", "L4", 4, "S4", "S4", none, []⟩,
          ⟨"T5", "L5", 5, "S5", "S5", none, []⟩ ]) := by
  refine ⟨?_, ?_, ?_, by decide⟩
  · intro now k entries
    rw [crawlFeed, length_filterMap_eq_length_filter_isSome]
    congr 1
    apply List.filter_congr
    intro e _
    exact parseEntry_isSome now k e
  · intro now k e rest hbad
    have : parseEntry now k e = none := by
      have := parseEntry_isSome now k e
      rw [hbad] at this
      exact Option.not_isSome_iff_eq_none.mp (by simp [this])
    simp [crawlFeed, List.filterMap_cons, this]
  · intro now k e rest a ha
    simp [crawlFeed, List.filterMap_cons, ha]

/-- C8 witness: a malformed head is dropped without disturbing the rest. -/
theorem crawl_drops_malformed_witness :
    crawlFeed 0 500 [⟨some "T", none, none, none, none, none, none, none, []⟩] =
      crawlFeed 0 500 [] :=
  crawl_drops_malformed.2.1 0 500 _ [] (by decide)

/-! ## Lemmas: run log recording -/

/-- C9: each adapter invocation appends exactly one RunLog record, whose
status is `failed` iff the adapter call itself raised, whose
`articles_found` is the item count the adapter returned and 0 when it
raised, whose `error_message` is the caught exception's message when
failed and empty otherwise, and whose timestamps are the recorded start
and finish times. -/
theorem runLog_per_invocation (failsOn : String → Bool) (t0 t1 : Nat)
    (fetched : Except String (List RawArticle))
    (sourceName sourceUrl defCat : String) (db : DB) (logs : List RunLog) :
    ∃ log : RunLog,
      (runSource failsOn t0 t1 fetched sourceName sourceUrl defCat db logs).2.1 = logs ++ [log]
      ∧ (log.status = LogStatus.failed ↔ ∃ msg, fetched = Except.error msg)
      ∧ log.articlesFound =
          (match fetched with
           | Except.ok items => items.length
           | Except.error _ => 0)
      ∧ log.errorMessage =
          (match fetched with
           | Except.ok _ => ""
           | Except.error msg => msg)
      ∧ log.startedAt = t0 ∧ log.finishedAt = t1 := by
  cases fetched with
  | error msg =>
      exact ⟨⟨sourceUrl, LogStatus.failed, 0, msg, t0, t1⟩, rfl,
        ⟨fun _ => ⟨msg, rfl⟩, fun _ => rfl⟩, rfl, rfl, rfl, rfl⟩
  | ok items =>
      refine ⟨⟨sourceUrl, LogStatus.success, items.length, "", t0, t1⟩, rfl, ?_, rfl, rfl, rfl, rfl⟩
      constructor
      · intro hcontra
        exact absurd hcontra (by simp)
      · rintro ⟨msg, hmsg⟩
        exact absurd hmsg (by simp)

/-! ## Lemmas: orchestrator bookkeeping -/

theorem urlExists_iff (db : DB) (v : String) : urlExists db v = true ↔ v ∈ urls db := by
  simp [urlExists, urls, List.any_eq_true]

theorem urlExists_false_iff (db : DB) (v : String) : urlExists db v = false ↔ v ∉ urls db := by
  rw [← Bool.not_eq_true, not_iff_not]
  exact urlExists_iff db v

theorem urls_insertArticle (db : DB) (a : Article) :
    urls (insertArticle db a) = a.originalUrl :: urls db := rfl

theorem urls_getOrCreateSource (db : DB) (n u : String) :
    urls (getOrCreateSource db n u) = urls db := by
  unfold getOrCreateSource
  split <;> rfl

theorem urls_touchSource (db : DB) (u : String) (now : Nat) :
    urls (touchSource db u now) = urls db := rfl

theorem articles_touchSource (db : DB) (u : String) (now : Nat) :
    (touchSource db u now).articles = db.articles := rfl

theorem articles_getOrCreateSource (db : DB) (n u : String) :
    (getOrCreateSource db n u).articles = db.articles := by
  unfold getOrCreateSource
  split <;> rfl

theorem urlExists_congr {db db' : DB} (h : urls db = urls db') (v : String) :
    urlExists db v = urlExists db' v := by
  cases he : urlExists db' v
  · rw [urlExists_false_iff, h]
    exact (urlExists_false_iff db' v).mp he
  · rw [urlExists_iff, h]
    exact (urlExists_iff db' v).mp he

/-- Componentwise sum of batch statistics. -/
def addStats (s t : Stats) : Stats :=
  ⟨s.total + t.total, s.created + t.created, s.skipped + t.skipped, s.errors + t.errors⟩

theorem bump_addStats (s t : Stats) (oc : Outcome) :
    bump (addStats s t) oc = addStats (bump s oc) t := by
  cases oc <;> simp [bump, addStats, Stats.mk.injEq] <;> omega

theorem addStats_zero (t : Stats) : addStats ⟨0, 0, 0, 0⟩ t = t := by
  simp [addStats]

theorem goBatch_append (failsOn : String → Bool) (d u : String) :
    ∀ (l1 l2 : List RawArticle) (db : DB),
      goBatch failsOn d u (l1 ++ l2) db =
        ((goBatch failsOn d u l2 (goBatch failsOn d u l1 db).1).1,
         addStats (goBatch failsOn d u l1 db).2
           (goBatch failsOn d u l2 (goBatch failsOn d u l1 db).1).2) := by
  intro l1
  induction l1 with
  | nil =>
      intro l2 db
      simp [goBatch, addStats_zero]
  | cons a l1' ih =>
      intro l2 db
      rw [List.cons_append]
      simp only [goBatch]
      rw [ih l2 (saveArticle failsOn d u db a).1]
      simp [bump_addStats]

theorem goBatch_total (failsOn : String → Bool) (d u : String) :
    ∀ (l : List RawArticle) (db : DB),
      (goBatch failsOn d u l db).2.total = l.length := by
  intro l
  induction l with
  | nil => intro db; rfl
  | cons a rest ih => intro db; simp [goBatch, bump, ih]

theorem goBatch_sum (failsOn : String → Bool) (d u : String) :
    ∀ (l : List RawArticle) (db : DB),
      (goBatch failsOn d u l db).2.created + (goBatch failsOn d u l db).2.skipped +
        (goBatch failsOn d u l db).2.errors = (goBatch failsOn d u l db).2.total := by
  intro l
  induction l with
  | nil => intro db; rfl
  | cons a rest ih =>
      intro db
      have h := ih (saveArticle failsOn d u db a).1
      cases hoc : (saveArticle failsOn d u db a).2 <;>
        simp [goBatch, bump, hoc] <;> omega

/-- C10: every `process_batch` call returns counters satisfying
`created + skipped + errors = total` with `total` the input length: each
item is counted under exactly one outcome. -/
theorem process_batch_counts (failsOn : String → Bool) (now : Nat)
    (items : List RawArticle) (name srcUrl defCat : String) (db : DB) :
    (process_batch failsOn now items name srcUrl defCat db).2.created +
      (process_batch failsOn now items name srcUrl defCat db).2.skipped +
      (process_batch failsOn now items name srcUrl defCat db).2.errors =
      (process_batch failsOn now items name srcUrl defCat db).2.total
    ∧ (process_batch failsOn now items name srcUrl defCat db).2.total = items.length := by
  constructor
  · exact goBatch_sum failsOn defCat srcUrl items (getOrCreateSource db name srcUrl)
  · exact goBatch_total failsOn defCat srcUrl items (getOrCreateSource db name srcUrl)

/-! ## Lemmas: idempotence -/

theorem mem_urls_saveArticle (failsOn : String → Bool) (d u : String) (db : DB)
    (a : RawArticle) (v : String) (h : v ∈ urls db) :
    v ∈ urls (saveArticle failsOn d u db a).1 := by
  unfold saveArticle
  split
  · exact h
  · split
    · exact h
    · rw [urls_insertArticle]
      exact List.mem_cons_of_mem _ h

theorem mem_urls_goBatch (failsOn : String → Bool) (d u : String) :
    ∀ (l : List RawArticle) (db : DB) (v : String), v ∈ urls db →
      v ∈ urls (goBatch failsOn d u l db).1 := by
  intro l
  induction l with
  | nil => intro db v h; exact h
  | cons a rest ih =>
      intro db v h
      exact ih _ v (mem_urls_saveArticle failsOn d u db a v h)

theorem url_mem_after_goBatch (d u : String) :
    ∀ (l : List RawArticle) (db : DB) (a : RawArticle), a ∈ l →
      a.url ∈ urls (goBatch noFail d u l db).1 := by
  intro l
  induction l with
  | nil => intro db a h; simp at h
  | cons b rest ih =>
      intro db a h
      rcases List.mem_cons.mp h with rfl | h
      · cases hex : urlExists db a.url with
        | true =>
            have hmem : a.url ∈ urls db := (urlExists_iff db a.url).mp hex
            exact mem_urls_goBatch noFail d u rest _ a.url
              (mem_urls_saveArticle noFail d u db a a.url hmem)
        | false =>
            have hsave : (saveArticle noFail d u db a).1 =
                insertArticle db (mkStored d u a) := by
              simp [saveArticle, hex, noFail]
            apply mem_urls_goBatch noFail d u rest
            rw [hsave, urls_insertArticle]
            exact List.mem_cons_self _ _
      · exact ih _ a h

theorem goBatch_all_exists (failsOn : String → Bool) (d u : String) :
    ∀ (l : List RawArticle) (db : DB), (∀ a ∈ l, urlExists db a.url = true) →
      goBatch failsOn d u l db = (db, ⟨l.length, 0, l.length, 0⟩) := by
  intro l
  induction l with
  | nil => intro db _; rfl
  | cons a rest ih =>
      intro db h
      have ha : urlExists db a.url = true := h a (List.mem_cons_self _ _)
      have hsave : saveArticle failsOn d u db a = (db, Outcome.skipped) := by
        simp [saveArticle, ha]
      simp only [goBatch, hsave]
      rw [ih db (fun b hb => h b (List.mem_cons_of_mem _ hb))]
      simp [bump]

/-- C2: `process_batch` is idempotent — a second call with the identical
input sequence (no other writer intervening) returns `created = 0` and
`skipped = total`, and the stored set of Articles is unchanged by the
second call. -/
theorem process_batch_idempotent (now1 now2 : Nat) (items : List RawArticle)
    (name srcUrl defCat : String) (db : DB) :
    (process_batch noFail now2 items name srcUrl defCat
        (process_batch noFail now1 items name srcUrl defCat db).1).2 =
      ⟨items.length, 0, items.length, 0⟩
    ∧ (process_batch noFail now2 items name srcUrl defCat
        (process_batch noFail now1 items name srcUrl defCat db).1).1.articles =
      (process_batch noFail now1 items name srcUrl defCat db).1.articles := by
  have hdb1 : (process_batch noFail now1 items name srcUrl defCat db).1.articles =
      (goBatch noFail defCat srcUrl items (getOrCreateSource db name srcUrl)).1.articles := rfl
  have hall : ∀ a ∈ items,
      urlExists (getOrCreateSource
        (process_batch noFail now1 items name srcUrl defCat db).1 name srcUrl) a.url = true := by
    intro a ha
    rw [urlExists_iff, urls_getOrCreateSource]
    show a.url ∈ (process_batch noFail now1 items name srcUrl defCat db).1.articles.map
      (fun x => x.originalUrl)
    rw [hdb1]
    exact url_mem_after_goBatch defCat srcUrl items _ a ha
  have hgo := goBatch_all_exists noFail defCat srcUrl items
    (getOrCreateSource (process_batch noFail now1 items name srcUrl defCat db).1 name srcUrl) hall
  constructor
  · show (goBatch noFail defCat srcUrl items
      (getOrCreateSource (process_batch noFail now1 items name srcUrl defCat db).1
        name srcUrl)).2 = _
    rw [hgo]
  · show (goBatch noFail defCat srcUrl items
      (getOrCreateSource (process_batch noFail now1 items name srcUrl defCat db).1
        name srcUrl)).1.articles = _
    rw [hgo]
    exact articles_getOrCreateSource _ name srcUrl

/-! ## Lemmas: per-item failure isolation -/

theorem urls_saveArticle_sub (failsOn : String → Bool) (d u : String) (db : DB)
    (a : RawArticle) (v : String) (h : v ∈ urls (saveArticle failsOn d u db a).1) :
    v = a.url ∨ v ∈ urls db := by
  revert h
  unfold saveArticle
  split
  · exact fun h => Or.inr h
  · split
    · exact fun h => Or.inr h
    · rw [urls_insertArticle]
      intro h
      rcases List.mem_cons.mp h with h | h
      · exact Or.inl h
      · exact Or.inr h

theorem urls_goBatch_sub (failsOn : String → Bool) (d u : String) :
    ∀ (l : List RawArticle) (db : DB) (v : String),
      v ∈ urls (goBatch failsOn d u l db).1 →
      v ∈ urls db ∨ v ∈ l.map (fun a => a.url) := by
  intro l
  induction l with
  | nil => intro db v h; exact Or.inl h
  | cons a rest ih =>
      intro db v h
      rcases ih _ v h with h | h
      · rcases urls_saveArticle_sub failsOn d u db a v h with rfl | h
        · exact Or.inr (by simp)
        · exact Or.inl h
      · exact Or.inr (by simp [h])

/-- C3: a per-article transaction failure is isolated — the failing item
increments `errors`, its partial writes are rolled back, and the storage
result and the `created`/`skipped`/`errors` contributions of every other
item are exactly those of the batch without the failing item. -/
theorem process_batch_item_isolation (failsOn : String → Bool) (now : Nat)
    (l1 l2 : List RawArticle) (x : RawArticle) (name srcUrl defCat : String) (db : DB)
    (hfail : failsOn x.url = true)
    (hfresh : urlExists db x.url = false)
    (hl1 : ∀ y ∈ l1, y.url ≠ x.url) :
    process_batch failsOn now (l1 ++ x :: l2) name srcUrl defCat db =
      ((process_batch failsOn now (l1 ++ l2) name srcUrl defCat db).1,
       ⟨(process_batch failsOn now (l1 ++ l2) name srcUrl defCat db).2.total + 1,
        (process_batch failsOn now (l1 ++ l2) name srcUrl defCat db).2.created,
        (process_batch failsOn now (l1 ++ l2) name srcUrl defCat db).2.skipped,
        (process_batch failsOn now (l1 ++ l2) name srcUrl defCat db).2.errors + 1⟩) := by
  have hfresh0 : urlExists (getOrCreateSource db name srcUrl) x.url = false := by
    rw [urlExists_congr (urls_getOrCreateSource db name srcUrl) x.url]
    exact hfresh
  have hmid : urlExists
      (goBatch failsOn defCat srcUrl l1 (getOrCreateSource db name srcUrl)).1 x.url = false := by
    rw [urlExists_false_iff]
    intro hmem
    rcases urls_goBatch_sub failsOn defCat srcUrl l1 _ x.url hmem with h | h
    · exact (urlExists_false_iff _ _).mp hfresh0 h
    · rcases List.mem_map.mp h with ⟨y, hy, hyx⟩
      exact hl1 y hy hyx
  have hsave : saveArticle failsOn defCat srcUrl
      (goBatch failsOn defCat srcUrl l1 (getOrCreateSource db name srcUrl)).1 x =
      ((goBatch failsOn defCat srcUrl l1 (getOrCreateSource db name srcUrl)).1,
        Outcome.errored) := by
    simp [saveArticle, hmid, hfail]
  have hxl2 : goBatch failsOn defCat srcUrl (x :: l2)
      (goBatch failsOn defCat srcUrl l1 (getOrCreateSource db name srcUrl)).1 =
      ((goBatch failsOn defCat srcUrl l2
          (goBatch failsOn defCat srcUrl l1 (getOrCreateSource db name srcUrl)).1).1,
        bump (goBatch failsOn defCat srcUrl l2
          (goBatch failsOn defCat srcUrl l1 (getOrCreateSource db name srcUrl)).1).2
          Outcome.errored) := by
    simp only [goBatch, hsave]
  simp only [process_batch]
  rw [goBatch_append failsOn defCat srcUrl l1 (x :: l2), hxl2,
    goBatch_append failsOn defCat srcUrl l1 l2]
  simp only [addStats, bump]
  rfl

/-- C3 witness: a two-item batch whose middle item's transaction fails
yields the same storage and per-item outcomes as the batch without it,
plus one error. -/
theorem process_batch_item_isolation_witness :
    process_batch (fun u => u == "http://x") 5
        [⟨"A", "http://a", 1, "", "", none, []⟩,
         ⟨"X", "http://x", 2, "", "", none, []⟩,
         ⟨"B", "http://b", 3, "", "", none, []⟩]
        "Src" "http://src" "android" ⟨[], []⟩ =
      ((process_batch (fun u => u == "http://x") 5
          [⟨"A", "http://a", 1, "", "", none, []⟩,
           ⟨"B", "http://b", 3, "", "", none, []⟩]
          "Src" "http://src" "android" ⟨[], []⟩).1,
       ⟨(process_batch (fun u => u == "http://x") 5
          [⟨"A", "http://a", 1, "", "", none, []⟩,
           ⟨"B", "http://b", 3, "", "", none, []⟩]
          "Src" "http://src" "android" ⟨[], []⟩).2.total + 1,
        (process_batch (fun u => u == "http://x") 5
          [⟨"A", "http://a", 1, "", "", none, []⟩,
           ⟨"B", "http://b", 3, "", "", none, []⟩]
          "Src" "http://src" "android" ⟨[], []⟩).2.created,
        (process_batch (fun u => u == "http://x") 5
          [⟨"A", "http://a", 1, "", "", none, []⟩,
           ⟨"B", "http://b", 3, "", "", none, []⟩]
          "Src" "http://src" "android" ⟨[], []⟩).2.skipped,
        (process_batch (fun u => u == "http://x") 5
          [⟨"A", "http://a", 1, "", "", none, []⟩,
           ⟨"B", "http://b", 3, "", "", none, []⟩]
          "Src" "http://src" "android" ⟨[], []⟩).2.errors + 1⟩) :=
  process_batch_item_isolation (fun u => u == "http://x") 5
    [⟨"A", "http://a", 1, "", "", none, []⟩]
    [⟨"B", "http://b", 3, "", "", none, []⟩]
    ⟨"X", "http://x", 2, "", "", none, []⟩
    "Src" "http://src" "android" ⟨[], []⟩
    (by decide) (by decide) (by decide)

/-! ## Lemmas: the dedup invariant under concurrent interleavings -/

theorem microStep_urls_nodup {db : DB} {r : RunCfg} {db' : DB} {r' : RunCfg}
    (h : MicroStep db r db' r') (hnd : (urls db).Nodup) : (urls db').Nodup := by
  cases h with
  | checkDup _ _ _ _ _ => exact hnd
  | checkFresh _ _ _ _ _ => exact hnd
  | insertRace _ _ _ _ _ => exact hnd
  | insertOk a rest d su hex =>
      rw [urls_insertArticle]
      exact List.nodup_cons.mpr ⟨(urlExists_false_iff db a.url).mp hex, hnd⟩

theorem microStep_urls_mono {db : DB} {r : RunCfg} {db' : DB} {r' : RunCfg}
    (h : MicroStep db r db' r') (v : String) (hv : v ∈ urls db) : v ∈ urls db' := by
  cases h with
  | checkDup _ _ _ _ _ => exact hv
  | checkFresh _ _ _ _ _ => exact hv
  | insertRace _ _ _ _ _ => exact hv
  | insertOk a rest d su hex =>
      rw [urls_insertArticle]
      exact List.mem_cons_of_mem _ hv

/-- The dedup obligation for one run: the tracked URL is either already
stored or still among the run's unresolved items. -/
def holdsFor (v : String) (db : DB) (r : RunCfg) : Prop :=
  v ∈ urls db ∨ v ∈ r.items.map (fun a => a.url)

theorem microStep_holdsFor {db : DB} {r : RunCfg} {db' : DB} {r' : RunCfg} {v : String}
    (h : MicroStep db r db' r') (hv : holdsFor v db r) : holdsFor v db' r' := by
  cases h with
  | checkDup a rest d su hex =>
      rcases hv with hdb | hitems
      · exact Or.inl hdb
      · simp only [RunCfg.items, List.map_cons, List.mem_cons] at hitems
        rcases hitems with rfl | hitems
        · exact Or.inl ((urlExists_iff db a.url).mp hex)
        · exact Or.inr hitems
  | checkFresh a rest d su hex => exact hv
  | insertOk a rest d su hex =>
      rcases hv with hdb | hitems
      · exact Or.inl (List.mem_cons_of_mem _ hdb)
      · simp only [RunCfg.items, List.map_cons, List.mem_cons] at hitems
        rcases hitems with rfl | hitems
        · exact Or.inl (List.mem_cons_self _ _)
        · exact Or.inr hitems
  | insertRace a rest d su hex =>
      rcases hv with hdb | hitems
      · exact Or.inl hdb
      · simp only [RunCfg.items, List.map_cons, List.mem_cons] at hitems
        rcases hitems with rfl | hitems
        · exact Or.inl ((urlExists_iff db a.url).mp hex)
        · exact Or.inr hitems

theorem sysStep_urls_nodup {s s' : Sys} (h : SysStep s s')
    (hnd : (urls s.db).Nodup) : (urls s'.db).Nodup := by
  cases h with
  | left _ _ _ _ _ hm => exact microStep_urls_nodup hm hnd
  | right _ _ _ _ _ hm => exact microStep_urls_nodup hm hnd

theorem sysStep_urls_mono {s s' : Sys} (h : SysStep s s') (v : String)
    (hv : v ∈ urls s.db) : v ∈ urls s'.db := by
  cases h with
  | left _ _ _ _ _ hm => exact microStep_urls_mono hm v hv
  | right _ _ _ _ _ hm => exact microStep_urls_mono hm v hv

theorem sysStep_holdsFor_r1 {s s' : Sys} {v : String} (h : SysStep s s')
    (hv : holdsFor v s.db s.r1) : holdsFor v s'.db s'.r1 := by
  cases h with
  | left _ _ _ _ _ hm => exact microStep_holdsFor hm hv
  | right _ _ _ _ _ hm =>
      rcases hv with hdb | hitems
      · exact Or.inl (microStep_urls_mono hm v hdb)
      · exact Or.inr hitems

theorem sysStep_holdsFor_r2 {s s' : Sys} {v : String} (h : SysStep s s')
    (hv : holdsFor v s.db s.r2) : holdsFor v s'.db s'.r2 := by
  cases h with
  | left _ _ _ _ _ hm =>
      rcases hv with hdb | hitems
      · exact Or.inl (microStep_urls_mono hm v hdb)
      · exact Or.inr hitems
  | right _ _ _ _ _ hm => exact microStep_holdsFor hm hv

theorem reach_urls_nodup {s s' : Sys} (h : Reach s s')
    (hnd : (urls s.db).Nodup) : (urls s'.db).Nodup := by
  induction h with
  | refl => exact hnd
  | tail _ hstep ih => exact sysStep_urls_nodup hstep ih

theorem reach_urls_mono {s s' : Sys} (h : Reach s s') (v : String)
    (hv : v ∈ urls s.db) : v ∈ urls s'.db := by
  induction h with
  | refl => exact hv
  | tail _ hstep ih => exact sysStep_urls_mono hstep v ih

theorem reach_holdsFor_r1 {s s' : Sys} {v : String} (h : Reach s s')
    (hv : holdsFor v s.db s.r1) : holdsFor v s'.db s'.r1 := by
  induction h with
  | refl => exact hv
  | tail _ hstep ih => exact sysStep_holdsFor_r1 hstep ih

theorem reach_holdsFor_r2 {s s' : Sys} {v : String} (h : Reach s s')
    (hv : holdsFor v s.db s.r2) : holdsFor v s'.db s'.r2 := by
  induction h with
  | refl => exact hv
  | tail _ hstep ih => exact sysStep_holdsFor_r2 hstep ih

/-- C1: no two persisted Articles ever share `original_url`.  Along every
interleaving of two concurrent batch runs starting from duplicate-free
storage, the stored URLs stay duplicate-free (the storage-level unique
constraint is the backstop: an insert commits only when the URL is still
absent), a URL already stored is only skipped, and once both runs have
resolved every item, a URL held by either run — or already present — is
stored exactly once. -/
theorem dedup_invariant_concurrent (s0 s1 : Sys) (v : String)
    (hr : Reach s0 s1)
    (hnd : (urls s0.db).Nodup)
    (h1 : s1.r1.done) (h2 : s1.r2.done)
    (hv : v ∈ urls s0.db ∨ v ∈ s0.r1.items.map (fun a => a.url)
      ∨ v ∈ s0.r2.items.map (fun a => a.url)) :
    (urls s1.db).count v = 1 ∧ (urls s1.db).Nodup := by
  have hnd1 := reach_urls_nodup hr hnd
  have hmem : v ∈ urls s1.db := by
    rcases hv with h | h | h
    · exact reach_urls_mono hr v h
    · have hinv := reach_holdsFor_r1 hr (Or.inr h)
      rcases hinv with h' | h'
      · exact h'
      · have hil : s1.r1.items = [] := by
          unfold RunCfg.items
          rw [h1]
        rw [hil] at h'
        simp at h'
    · have hinv := reach_holdsFor_r2 hr (Or.inr h)
      rcases hinv with h' | h'
      · exact h'
      · have hil : s1.r2.items = [] := by
          unfold RunCfg.items
          rw [h2]
        rw [hil] at h'
        simp at h'
  refine ⟨Nat.le_antisymm (List.nodup_iff_count_le_one.mp hnd1 v)
    (List.one_le_count_iff.mpr hmem), hnd1⟩

/-- C1 witness: both runs race on the same URL from empty storage — both
pass the dedup check, the first commit succeeds, the second hits the
unique constraint — and exactly one Article for that URL is stored. -/
theorem dedup_invariant_concurrent_witness :
    (urls (insertArticle ⟨[], []⟩
      (mkStored "android" "s1" ⟨"T", "u1", 0, "", "", none, []⟩))).count "u1" = 1 ∧
    (urls (insertArticle ⟨[], []⟩
      (mkStored "android" "s1" ⟨"T", "u1", 0, "", "", none, []⟩))).Nodup := by
  have hreach : Reach
      ⟨⟨[], []⟩,
       ⟨Phase.ready [⟨"T", "u1", 0, "", "", none, []⟩], "android", "s1"⟩,
       ⟨Phase.ready [⟨"T", "u1", 0, "", "", none, []⟩], "ios", "s2"⟩⟩
      ⟨insertArticle ⟨[], []⟩ (mkStored "android" "s1" ⟨"T", "u1", 0, "", "", none, []⟩),
       ⟨Phase.ready [], "android", "s1"⟩,
       ⟨Phase.ready [], "ios", "s2"⟩⟩ := by
    refine Relation.ReflTransGen.head
      (SysStep.left ⟨[], []⟩ _ _ ⟨[], []⟩ _
        (MicroStep.checkFresh ⟨[], []⟩ ⟨"T", "u1", 0, "", "", none, []⟩ [] "android" "s1"
          (by decide)))
      (Relation.ReflTransGen.head
        (SysStep.right ⟨[], []⟩ _ _ ⟨[], []⟩ _
          (MicroStep.checkFresh ⟨[], []⟩ ⟨"T", "u1", 0, "", "", none, []⟩ [] "ios" "s2"
            (by decide)))
        (Relation.ReflTransGen.head
          (SysStep.left ⟨[], []⟩ _ _ _ _
            (MicroStep.insertOk ⟨[], []⟩ ⟨"T", "u1", 0, "", "", none, []⟩ [] "android" "s1"
              (by decide)))
          (Relation.ReflTransGen.head
            (SysStep.right _ _ _ _ _
              (MicroStep.insertRace
                (insertArticle ⟨[], []⟩
                  (mkStored "android" "s1" ⟨"T", "u1", 0, "", "", none, []⟩))
                ⟨"T", "u1", 0, "", "", none, []⟩ [] "ios" "s2" (by decide)))
            Relation.ReflTransGen.refl)))
  exact dedup_invariant_concurrent _ _ "u1" hreach (by decide) rfl rfl
    (Or.inr (Or.inl (by decide)))

end Crawl
